import Mathlib

/-!
Verification of the review-analysis dashboard core (src/app.py).

The embedding maps Python strings to `List Char`, pandas cells that may be
NaN to `Option`, and the fallible percentage computation (Python raises
`ZeroDivisionError`) to `Option ℚ`.  The jieba tokenizer is an external
library collaborator; it is taken as a function parameter, with its relevant
guarantees (every token is either whitespace-free at its ends or a pure
whitespace run, and the empty text yields no tokens) as explicit hypotheses
where a claim needs them.
-/

namespace ReviewAnalysis

/-- A Python string, modelled as its list of characters. -/
abbrev Text := List Char

/-- Character class kept by `clean_text`'s regex `[^\w\s一-龥]`
substitution: word characters (modelled as ASCII alphanumerics plus
underscore), whitespace, and the CJK ideograph range.  The claims about
cleaning do not depend on the exact class. -/
def isCleanKeep (c : Char) : Bool :=
  c.isAlphanum || c == '_' || c.isWhitespace ||
    (0x4e00 ≤ c.toNat && c.toNat ≤ 0x9fa5)

/-- Body of `clean_text` on an actual string: `re.sub` deleting every
character outside the kept class. -/
def cleanStr (s : Text) : Text := s.filter isCleanKeep

/-- Source `clean_text`: a missing cell (`pd.isna`) becomes the empty
string, otherwise the character filter is applied. -/
def clean_text (x : Option Text) : Text :=
  match x with
  | none => []
  | some s => cleanStr s

/-- Sentiment buckets; the source uses the strings `'差评 (痛点)'`
(NEGATIVE) and `'好评 (卖点)'` (POSITIVE). -/
inductive Sentiment
  | NEGATIVE
  | POSITIVE
deriving DecidableEq

/-- A raw spreadsheet cell in the rating column: a number, a text, or
missing (NaN). -/
inductive RawCell
  | num (q : ℚ)
  | txt (s : Text)
  | missing
deriving DecidableEq

/-- Numeric value of a decimal digit character. -/
def digitVal (c : Char) : Nat := c.toNat - 48

/-- Value of a digit string read in base 10. -/
def digitsToNat (ds : Text) : Nat := ds.foldl (fun n c => 10 * n + digitVal c) 0

/-- Python `str.strip`: drop leading whitespace, then drop trailing
whitespace (via reversing). -/
def strip (s : Text) : Text :=
  ((s.dropWhile Char.isWhitespace).reverse.dropWhile Char.isWhitespace).reverse

/-- Unsigned decimal literal parser: an integer part, optionally followed
by a dot and a fractional part, at least one digit overall. -/
def parseUnsigned (s : Text) : Option ℚ :=
  let ip := s.takeWhile (fun c => c != '.')
  let rest := s.dropWhile (fun c => c != '.')
  match rest with
  | [] =>
      if !ip.isEmpty && ip.all Char.isDigit then some (digitsToNat ip) else none
  | _ :: fp =>
      if (!ip.isEmpty || !fp.isEmpty) && ip.all Char.isDigit
          && fp.all Char.isDigit then
        some (digitsToNat ip + digitsToNat fp / (10 : ℚ) ^ fp.length)
      else none

/-- Decimal parser with optional sign, after stripping surrounding
whitespace.  Models the numeric-literal parsing done by
`pd.to_numeric(..., errors='coerce')` on a text cell. -/
def parseNumber (s0 : Text) : Option ℚ :=
  match strip s0 with
  | '-' :: t => (parseUnsigned t).map (fun q => -q)
  | '+' :: t => parseUnsigned t
  | t => parseUnsigned t

/-- Source line 47, `pd.to_numeric(df[rating_col], errors='coerce')` on one
cell: numbers pass through, texts are parsed, anything unparseable or
missing becomes NaN (`none`). -/
def to_numeric (c : RawCell) : Option ℚ :=
  match c with
  | .num q => some q
  | .txt s => parseNumber s
  | .missing => none

/-- Source line 50, `fillna(4)`: the coerced rating with NaN replaced by
the default 4. -/
def numeric_of (c : RawCell) : ℚ := (to_numeric c).getD 4

/-- Source lines 53-55: the bucketing lambda, `x <= 3` is NEGATIVE, else
POSITIVE.  The threshold 3 is this fixed constant; the function takes no
threshold parameter. -/
def sentiment_of (x : ℚ) : Sentiment :=
  if x ≤ 3 then .NEGATIVE else .POSITIVE

/-- A classified row: the original row together with the two added
columns `Numeric_Rating` and `Sentiment`. -/
structure Classified (α : Type) where
  row : α
  numeric_rating : ℚ
  sentiment : Sentiment
deriving DecidableEq

/-- Source `analyze_sentiment_group`: every row is annotated with its
coerced-and-defaulted numeric rating and the derived sentiment bucket.
The rating column selection (`rating_col`) is the accessor `rating`. -/
def analyze_sentiment_group (rating : α → RawCell) (rows : List α) :
    List (Classified α) :=
  rows.map (fun r =>
    ⟨r, numeric_of (rating r), sentiment_of (numeric_of (rating r))⟩)

/-- Source line 101, `len(df[df['Numeric_Rating']<=3])/len(df)*100`: the
negative-review percentage.  Python integer division by zero raises
`ZeroDivisionError`, modelled as `none`. -/
def negative_percentage (rows : List (Classified α)) : Option ℚ :=
  if rows.length = 0 then none
  else
    some ((((rows.filter (fun c => decide (c.numeric_rating ≤ 3))).length : ℚ)
      / (rows.length : ℚ)) * 100)

/-- The fixed stopword list of `get_keywords` (source lines 32-37). -/
def stopwords : List Text :=
  (["的", "了", "是", "我", "在", "和", "也", "都", "就", "用", "有", "很",
    "买", "一个", "这款", "这个", "使用", "感觉", "可以", "非常", "就是",
    "不过", "自己", "那里", "什么", "所以", "会", "它", "它家", "它能",
    "the", "and", "to", "a", "of", "it", "is", "in", "for"]).map
    String.toList

/-- Python `str.lower`, character by character. -/
def lowerStr (s : Text) : Text := s.map Char.toLower

/-- Python `" ".join(...)` over the non-missing text cells. -/
def join_spaces (cells : List Text) : Text := List.intercalate [' '] cells

/-- The token predicate of source line 39:
`len(w.strip()) > 1 and w.lower() not in stopwords`. -/
def keyword_filter (w : Text) : Bool :=
  decide (1 < (strip w).length) && decide (lowerStr w ∉ stopwords)

/-- Source line 39: keep the qualifying tokens and take `w.strip()` of
each. -/
def filtered_words (words : List Text) : List Text :=
  (words.filter keyword_filter).map strip

/-- Index of the first occurrence of `x` in a list (length of the list
when absent). -/
def firstIdx [DecidableEq α] (x : α) : List α → Nat
  | [] => 0
  | a :: t => if a = x then 0 else firstIdx x t + 1

/-- Distinct elements of the second list in first-occurrence order, the
first list being the elements already seen. -/
def firstOccsAux [DecidableEq α] : List α → List α → List α
  | _, [] => []
  | seen, a :: l =>
      if a ∈ seen then firstOccsAux seen l
      else a :: firstOccsAux (a :: seen) l

/-- Distinct elements of a list in first-occurrence order: the key order
of a Python dict (hence `collections.Counter`) built by insertion. -/
def firstOccs [DecidableEq α] (l : List α) : List α := firstOccsAux [] l

/-- The item list of `collections.Counter(l)`: each distinct element with
its number of occurrences, keys in first-occurrence (insertion) order. -/
def counter [DecidableEq α] (l : List α) : List (α × Nat) :=
  (firstOccs l).map (fun a => (a, l.count a))

/-- Insert `x` into a list, skipping every leading `y` with `keep x y` and
stopping before the first other one.  With `keep` a strict comparison this
is the insertion step of a stable insertion sort. -/
def insertSorted (keep : β → β → Bool) (x : β) : List β → List β
  | [] => [x]
  | y :: ys => if keep x y then y :: insertSorted keep x ys else x :: y :: ys

/-- Stable insertion sort; an element is placed after exactly those earlier
elements `y` with `keep x y`. -/
def isortBy (keep : β → β → Bool) (l : List β) : List β :=
  l.foldr (insertSorted keep) []

/-- Comparison for `most_common`: the inserted entry moves past entries
with strictly larger count, so the sort is descending by count and stable
(equal counts keep their insertion order). -/
def keepDesc (a b : α × Nat) : Bool := decide (a.2 < b.2)

/-- Python `Counter.most_common(n)`: the count-descending stable ordering
of the items (`heapq.nlargest` is documented as
`sorted(items, key=count, reverse=True)[:n]`, which is stable), truncated
to `n` entries. -/
def most_common [DecidableEq α] (n : Nat) (l : List (α × Nat)) :
    List (α × Nat) :=
  (isortBy keepDesc l).take n

/-- Source `get_keywords`: join the non-missing cells with spaces,
tokenize (`jieba.lcut`, an external library, taken as a parameter), filter
and strip the tokens, count, and return the `top_n` most common. -/
def get_keywords (tokenize : Text → List Text) (cells : List (Option Text))
    (top_n : Nat) : List (Text × Nat) :=
  most_common top_n
    (counter (filtered_words (tokenize (join_spaces (cells.filterMap id)))))

/-- Mean of a list of rationals, as computed by pandas on a nonempty
group. -/
def listMean (l : List ℚ) : ℚ := l.sum / (l.length : ℚ)

/-- Source lines 188-191, `df.groupby(variant_col).agg(avg_rating, count)`:
per distinct variant value, the mean numeric rating and the row count.
Pandas enumerates groups in sorted key order; the groups are listed here in
first-occurrence order, which is immaterial because the consumer re-sorts
by mean rating. -/
def variant_stats (variantOf : α → K) (ratingOf : α → ℚ) (rows : List α)
    [DecidableEq K] : List (K × ℚ × Nat) :=
  (firstOccs (rows.map variantOf)).map (fun k =>
    ((k, listMean ((rows.filter (fun r => decide (variantOf r = k))).map
      ratingOf),
      (rows.filter (fun r => decide (variantOf r = k))).length) : K × ℚ × Nat))

/-- Comparison for the variant ranking: ascending by mean rating. -/
def keepAscRating (a b : K × ℚ × Nat) : Bool := decide (b.2.1 < a.2.1)

/-- Source line 196: keep the variants with at least `min_count` reviews
and sort them by average rating ascending (worst first). -/
def variant_filtered (variantOf : α → K) (ratingOf : α → ℚ) (rows : List α)
    (min_count : Nat) [DecidableEq K] : List (K × ℚ × Nat) :=
  isortBy keepAscRating
    ((variant_stats variantOf ratingOf rows).filter
      (fun p => decide (min_count ≤ p.2.2)))

/-! General lemmas about the helper functions. -/

theorem dropWhile_head_false (p : α → Bool) (l : List α) {d : α} {ds : List α}
    (h : l.dropWhile p = d :: ds) : p d = false := by
  induction l with
  | nil => simp at h
  | cons a t ih =>
    rw [List.dropWhile_cons] at h
    by_cases hp : p a = true
    · rw [if_pos hp] at h; exact ih h
    · rw [if_neg hp] at h
      injection h with h1 _
      subst h1
      simpa using hp

theorem strip_idem (s : Text) : strip (strip s) = strip s := by
  unfold strip
  set u := s.dropWhile Char.isWhitespace with hu
  set v := u.reverse.dropWhile Char.isWhitespace with hv
  have hdecomp : u = v.reverse ++ (u.reverse.takeWhile Char.isWhitespace).reverse := by
    conv_lhs => rw [← List.reverse_reverse u,
      ← List.takeWhile_append_dropWhile Char.isWhitespace u.reverse]
    rw [List.reverse_append, ← hv]
  have hstep : v.reverse.dropWhile Char.isWhitespace = v.reverse := by
    cases hvr : v.reverse with
    | nil => simp
    | cons d t =>
      have hsplit : s.dropWhile Char.isWhitespace
          = d :: (t ++ (u.reverse.takeWhile Char.isWhitespace).reverse) := by
        conv_lhs => rw [← hu, hdecomp, hvr]
        rfl
      have hd : Char.isWhitespace d = false :=
        dropWhile_head_false Char.isWhitespace s hsplit
      rw [List.dropWhile_cons, hd]
      simp
  rw [hstep, List.reverse_reverse, hv, List.dropWhile_idempotent]

theorem insertSorted_eq (keep : β → β → Bool) (x : β) (s : List β) :
    insertSorted keep x s =
      s.takeWhile (keep x) ++ x :: s.dropWhile (keep x) := by
  induction s with
  | nil => rfl
  | cons y ys ih =>
    by_cases h : keep x y = true
    · simp [insertSorted, List.takeWhile_cons, List.dropWhile_cons, h, ih]
    · simp [insertSorted, List.takeWhile_cons, List.dropWhile_cons, h]

theorem insertSorted_perm (keep : β → β → Bool) (x : β) (s : List β) :
    (insertSorted keep x s).Perm (x :: s) := by
  rw [insertSorted_eq]
  have h := @List.perm_middle β x (s.takeWhile (keep x)) (s.dropWhile (keep x))
  rwa [List.takeWhile_append_dropWhile] at h

theorem isortBy_perm (keep : β → β → Bool) (l : List β) :
    (isortBy keep l).Perm l := by
  induction l with
  | nil => exact List.Perm.refl []
  | cons x t ih =>
    have h1 : isortBy keep (x :: t) = insertSorted keep x (isortBy keep t) := rfl
    rw [h1]
    exact (insertSorted_perm keep x (isortBy keep t)).trans (ih.cons x)

theorem insertSorted_pairwise (keep : β → β → Bool)
    (hasym : ∀ a b, keep a b = true → keep b a = false)
    (htrans : ∀ a b c, keep a b = false → keep b c = false → keep a c = false)
    (x : β) (s : List β)
    (hs : s.Pairwise (fun a b => keep a b = false)) :
    (insertSorted keep x s).Pairwise (fun a b => keep a b = false) := by
  rw [insertSorted_eq]
  have hsd : (s.takeWhile (keep x) ++ s.dropWhile (keep x)).Pairwise
      (fun a b => keep a b = false) := by
    rw [List.takeWhile_append_dropWhile]; exact hs
  rw [List.pairwise_append] at hsd
  obtain ⟨hT, hD, hTD⟩ := hsd
  rw [List.pairwise_append]
  refine ⟨hT, ?_, ?_⟩
  · rw [List.pairwise_cons]
    refine ⟨?_, hD⟩
    intro b hb
    cases hD0 : s.dropWhile (keep x) with
    | nil => rw [hD0] at hb; simp at hb
    | cons d ds =>
      have hxd : keep x d = false := dropWhile_head_false (keep x) s hD0
      rw [hD0] at hb
      rcases List.mem_cons.mp hb with rfl | hb2
      · exact hxd
      · have hdb : keep d b = false := by
          rw [hD0] at hD
          exact (List.pairwise_cons.mp hD).1 b hb2
        exact htrans x d b hxd hdb
  · intro a ha b hb
    rcases List.mem_cons.mp hb with rfl | hb2
    · exact hasym b a (List.mem_takeWhile_imp ha)
    · exact hTD a ha b hb2

theorem isortBy_pairwise (keep : β → β → Bool)
    (hasym : ∀ a b, keep a b = true → keep b a = false)
    (htrans : ∀ a b c, keep a b = false → keep b c = false → keep a c = false)
    (l : List β) :
    (isortBy keep l).Pairwise (fun a b => keep a b = false) := by
  induction l with
  | nil => exact List.Pairwise.nil
  | cons x t ih => exact insertSorted_pairwise keep hasym htrans x (isortBy keep t) ih

theorem pair_sublist_isortBy (keep : β → β → Bool) {a b : β}
    (hba : keep b a = false) :
    ∀ l : List β, [a, b].Sublist (isortBy keep l) → [a, b].Sublist l := by
  intro l
  induction l with
  | nil => intro h; exact h
  | cons x t ih =>
    intro h
    have hins : isortBy keep (x :: t) = insertSorted keep x (isortBy keep t) := rfl
    rw [hins, insertSorted_eq] at h
    have hTs : ((isortBy keep t).takeWhile (keep x)).Sublist (isortBy keep t) :=
      List.takeWhile_sublist _
    have hDs : ((isortBy keep t).dropWhile (keep x)).Sublist (isortBy keep t) :=
      List.dropWhile_sublist _
    have hmem : ∀ c : β, c ∈ isortBy keep t → c ∈ t :=
      fun c hc => (isortBy_perm keep t).mem_iff.mp hc
    rcases List.sublist_append_iff.mp h with ⟨r₁, r₂, hr, h₁, h₂⟩
    rcases r₁ with _ | ⟨c, _ | ⟨e, r⟩⟩
    · -- the pair lands entirely right of the takeWhile block
      rw [List.nil_append] at hr
      rw [← hr] at h₂
      rcases List.sublist_cons_iff.mp h₂ with h3 | ⟨r, hre, h4⟩
      · exact List.Sublist.cons x (ih (h3.trans hDs))
      · injection hre with hre1 hre2
        subst hre1
        rw [← hre2] at h4
        have hbt : b ∈ t := hmem b (h4.subset (by simp) |> hDs.subset)
        exact List.Sublist.cons₂ a (List.singleton_sublist.mpr hbt)
    · -- a alone lands in the takeWhile block
      have hr' : a = c ∧ [b] = r₂ := by
        rw [List.cons_append] at hr
        injection hr with h5 h6
        exact ⟨h5, h6⟩
      obtain ⟨rfl, hr₂⟩ := hr'
      rw [← hr₂] at h₂
      have haT : a ∈ (isortBy keep t).takeWhile (keep x) :=
        h₁.subset (List.mem_singleton.mpr rfl)
      rcases List.sublist_cons_iff.mp h₂ with h3 | ⟨r, hre, h4⟩
      · have hbD : b ∈ (isortBy keep t).dropWhile (keep x) :=
          h3.subset (List.mem_singleton.mpr rfl)
        have hpair : [a, b].Sublist
            ((isortBy keep t).takeWhile (keep x) ++
              (isortBy keep t).dropWhile (keep x)) :=
          List.Sublist.append (List.singleton_sublist.mpr haT)
            (List.singleton_sublist.mpr hbD)
        rw [List.takeWhile_append_dropWhile] at hpair
        exact List.Sublist.cons x (ih hpair)
      · injection hre with hre1 _
        subst hre1
        have : keep b a = true := List.mem_takeWhile_imp haT
        rw [hba] at this
        exact absurd this (by simp)
    · -- both land in the takeWhile block
      have hr' : a = c ∧ b = e ∧ r ++ r₂ = [] := by
        rw [List.cons_append, List.cons_append] at hr
        injection hr with h5 h6
        injection h6 with h7 h8
        exact ⟨h5, h7, h8.symm⟩
      obtain ⟨rfl, rfl, hnil⟩ := hr'
      have hrnil : r = [] := by
        rcases List.append_eq_nil.mp hnil with ⟨h9, _⟩
        exact h9
      subst hrnil
      exact List.Sublist.cons x (ih (h₁.trans hTs))

theorem mem_firstOccsAux [DecidableEq α] (l : List α) :
    ∀ (seen : List α) (x : α),
      x ∈ firstOccsAux seen l ↔ x ∈ l ∧ x ∉ seen := by
  induction l with
  | nil => intro seen x; simp [firstOccsAux]
  | cons a t ih =>
    intro seen x
    by_cases ha : a ∈ seen
    · rw [show firstOccsAux seen (a :: t) = firstOccsAux seen t from by
        simp [firstOccsAux, ha], ih]
      constructor
      · rintro ⟨h1, h2⟩; exact ⟨List.mem_cons_of_mem a h1, h2⟩
      · rintro ⟨h1, h2⟩
        rcases List.mem_cons.mp h1 with rfl | h3
        · exact absurd ha h2
        · exact ⟨h3, h2⟩
    · rw [show firstOccsAux seen (a :: t) = a :: firstOccsAux (a :: seen) t from by
        simp [firstOccsAux, ha]]
      constructor
      · intro h
        rcases List.mem_cons.mp h with rfl | h2
        · exact ⟨List.mem_cons_self x t, ha⟩
        · rw [ih] at h2
          refine ⟨List.mem_cons_of_mem a h2.1, ?_⟩
          intro hx; exact h2.2 (List.mem_cons_of_mem a hx)
      · rintro ⟨h1, h2⟩
        rcases List.mem_cons.mp h1 with rfl | h3
        · exact List.mem_cons_self x _
        · by_cases hxa : x = a
          · subst hxa; exact List.mem_cons_self x _
          · apply List.mem_cons_of_mem
            rw [ih]
            refine ⟨h3, ?_⟩
            intro hc
            rcases List.mem_cons.mp hc with h4 | h4
            · exact hxa h4
            · exact h2 h4

theorem nodup_firstOccsAux [DecidableEq α] (l : List α) :
    ∀ seen : List α, (firstOccsAux seen l).Nodup := by
  induction l with
  | nil => intro seen; simp [firstOccsAux]
  | cons a t ih =>
    intro seen
    by_cases ha : a ∈ seen
    · rw [show firstOccsAux seen (a :: t) = firstOccsAux seen t from by
        simp [firstOccsAux, ha]]
      exact ih seen
    · rw [show firstOccsAux seen (a :: t) = a :: firstOccsAux (a :: seen) t from by
        simp [firstOccsAux, ha]]
      rw [List.nodup_cons]
      refine ⟨?_, ih _⟩
      intro hmem
      rw [mem_firstOccsAux] at hmem
      exact hmem.2 (List.mem_cons_self a seen)

theorem firstOccsAux_firstIdx_lt [DecidableEq α] (l : List α) :
    ∀ (seen : List α) {x y : α},
      [x, y].Sublist (firstOccsAux seen l) →
        firstIdx x l < firstIdx y l := by
  induction l with
  | nil => intro seen x y h; simp [firstOccsAux] at h
  | cons a t ih =>
    intro seen x y h
    have hxy : x ∈ [x, y] := by simp
    have hyy : y ∈ [x, y] := by simp
    by_cases ha : a ∈ seen
    · rw [show firstOccsAux seen (a :: t) = firstOccsAux seen t from by
        simp [firstOccsAux, ha]] at h
      have hx := (mem_firstOccsAux t seen x).mp (h.subset hxy)
      have hy := (mem_firstOccsAux t seen y).mp (h.subset hyy)
      have hax : a ≠ x := fun he => hx.2 (he ▸ ha)
      have hay : a ≠ y := fun he => hy.2 (he ▸ ha)
      rw [show firstIdx x (a :: t) = firstIdx x t + 1 from by simp [firstIdx, hax],
        show firstIdx y (a :: t) = firstIdx y t + 1 from by simp [firstIdx, hay]]
      exact Nat.succ_lt_succ (ih seen h)
    · rw [show firstOccsAux seen (a :: t) = a :: firstOccsAux (a :: seen) t from by
        simp [firstOccsAux, ha]] at h
      rcases List.sublist_cons_iff.mp h with h2 | ⟨r, hre, h3⟩
      · have hx := (mem_firstOccsAux t (a :: seen) x).mp (h2.subset hxy)
        have hy := (mem_firstOccsAux t (a :: seen) y).mp (h2.subset hyy)
        have hax : a ≠ x := fun he => hx.2 (he ▸ List.mem_cons_self a seen)
        have hay : a ≠ y := fun he => hy.2 (he ▸ List.mem_cons_self a seen)
        rw [show firstIdx x (a :: t) = firstIdx x t + 1 from by simp [firstIdx, hax],
          show firstIdx y (a :: t) = firstIdx y t + 1 from by simp [firstIdx, hay]]
        exact Nat.succ_lt_succ (ih (a :: seen) h2)
      · injection hre with hre1 hre2
        subst hre1
        rw [← hre2] at h3
        have hy := (mem_firstOccsAux t (x :: seen) y).mp
          (h3.subset (List.mem_singleton.mpr rfl))
        have hay : x ≠ y := fun he => hy.2 (he ▸ List.mem_cons_self x seen)
        rw [show firstIdx x (x :: t) = 0 from by simp [firstIdx],
          show firstIdx y (x :: t) = firstIdx y t + 1 from by simp [firstIdx, hay]]
        exact Nat.succ_pos _

theorem mem_firstOccs [DecidableEq α] (l : List α) (x : α) :
    x ∈ firstOccs l ↔ x ∈ l := by
  rw [firstOccs, mem_firstOccsAux]
  simp

theorem nodup_firstOccs [DecidableEq α] (l : List α) : (firstOccs l).Nodup :=
  nodup_firstOccsAux l []

theorem firstOccs_firstIdx_lt [DecidableEq α] {l : List α} {x y : α}
    (h : [x, y].Sublist (firstOccs l)) :
    firstIdx x l < firstIdx y l :=
  firstOccsAux_firstIdx_lt l [] h

theorem length_firstOccs [DecidableEq α] (l : List α) :
    (firstOccs l).length = l.dedup.length := by
  have hperm : (firstOccs l).Perm l.dedup :=
    (List.perm_ext_iff_of_nodup (nodup_firstOccs l) (List.nodup_dedup l)).mpr
      (fun a => by rw [mem_firstOccs, List.mem_dedup])
  exact hperm.length_eq

theorem mem_counter [DecidableEq α] {l : List α} {p : α × Nat}
    (h : p ∈ counter l) : p.1 ∈ l ∧ p.2 = l.count p.1 := by
  simp only [counter, List.mem_map] at h
  obtain ⟨a, ha, rfl⟩ := h
  exact ⟨(mem_firstOccs l a).mp ha, rfl⟩

theorem counter_length [DecidableEq α] (l : List α) :
    (counter l).length = l.dedup.length := by
  rw [counter, List.length_map, length_firstOccs]

theorem counter_pair_sublist [DecidableEq α] {l : List α} {p q : α × Nat}
    (h : [p, q].Sublist (counter l)) : [p.1, q.1].Sublist (firstOccs l) := by
  rw [counter] at h
  rcases List.sublist_map_iff.mp h with ⟨l', hl', hmap⟩
  cases l' with
  | nil => simp at hmap
  | cons u us =>
    cases us with
    | nil => simp at hmap
    | cons v vs =>
      cases vs with
      | nil =>
        simp only [List.map_cons, List.map_nil] at hmap
        injection hmap with h1 h2
        injection h2 with h3 _
        have hgoal : [p.1, q.1] = [u, v] := by rw [h1, h3]
        rw [hgoal]
        exact hl'
      | cons w ws => simp at hmap

theorem pair_get_sublist :
    ∀ (l : List β) (i j : Nat) (hi : i < l.length) (hj : j < l.length),
      i < j → [l.get ⟨i, hi⟩, l.get ⟨j, hj⟩].Sublist l := by
  intro l
  induction l with
  | nil => intro i j hi _ _; simp at hi
  | cons x t ih =>
    intro i j hi hj hij
    cases i with
    | zero =>
      cases j with
      | zero => simp at hij
      | succ j' =>
        have hj' : j' < t.length := Nat.lt_of_succ_lt_succ hj
        show [x, t.get ⟨j', hj'⟩].Sublist (x :: t)
        exact List.Sublist.cons₂ x (List.singleton_sublist.mpr (t.get_mem _ _))
    | succ i' =>
      cases j with
      | zero => simp at hij
      | succ j' =>
        have hi' : i' < t.length := Nat.lt_of_succ_lt_succ hi
        have hj' : j' < t.length := Nat.lt_of_succ_lt_succ hj
        show [t.get ⟨i', hi'⟩, t.get ⟨j', hj'⟩].Sublist (x :: t)
        exact List.Sublist.cons x (ih i' j' hi' hj' (Nat.lt_of_succ_lt_succ hij))

/-! Claim theorems. -/

/-- C5: cleaning is idempotent (cleaning an already-cleaned text returns
it unchanged), and cleaning a missing value yields the empty string. -/
theorem clean_text_idempotent (x : Option Text) :
    clean_text (some (clean_text x)) = clean_text x ∧ clean_text none = [] := by
  refine ⟨?_, rfl⟩
  cases x with
  | none => rfl
  | some s => simp [clean_text, cleanStr, List.filter_filter]

/-- C1: every classified row has sentiment NEGATIVE exactly when its
numeric rating is at most 3, and the boundary value 3 is bucketed
NEGATIVE; the threshold 3 is the fixed constant inside `sentiment_of`,
which takes no threshold parameter. -/
theorem sentiment_negative_iff (rating : α → RawCell) (rows : List α)
    (c : Classified α) (hc : c ∈ analyze_sentiment_group rating rows) :
    (c.sentiment = Sentiment.NEGATIVE ↔ c.numeric_rating ≤ 3) ∧
      sentiment_of 3 = Sentiment.NEGATIVE := by
  refine ⟨?_, by simp [sentiment_of]⟩
  simp only [analyze_sentiment_group, List.mem_map] at hc
  obtain ⟨r, _, rfl⟩ := hc
  show sentiment_of (numeric_of (rating r)) = Sentiment.NEGATIVE ↔
    numeric_of (rating r) ≤ 3
  rw [sentiment_of]
  by_cases h : numeric_of (rating r) ≤ 3
  · simp [h]
  · simp [h]

/-- Witness for C1: the concrete boundary row with rating exactly 3 is
classified NEGATIVE. -/
theorem sentiment_negative_iff_witness :
    ((Classified.mk (RawCell.num 3) 3 Sentiment.NEGATIVE).sentiment
        = Sentiment.NEGATIVE ↔
      (Classified.mk (RawCell.num 3) 3 Sentiment.NEGATIVE).numeric_rating ≤ 3) ∧
      sentiment_of 3 = Sentiment.NEGATIVE :=
  sentiment_negative_iff id [RawCell.num 3]
    (Classified.mk (RawCell.num 3) 3 Sentiment.NEGATIVE) (by decide)

/-- C2: classification never fails: it emits one classified row per input
row, and each numeric rating is the parsed raw rating when it parses and
the default 4 when the raw rating is unparseable text or missing. -/
theorem numeric_rating_total (rating : α → RawCell) (rows : List α)
    (c : Classified α) (hc : c ∈ analyze_sentiment_group rating rows) :
    (analyze_sentiment_group rating rows).length = rows.length ∧
      (∀ q : ℚ, to_numeric (rating c.row) = some q → c.numeric_rating = q) ∧
      (to_numeric (rating c.row) = none → c.numeric_rating = 4) := by
  simp only [analyze_sentiment_group, List.mem_map] at hc
  obtain ⟨r, _, rfl⟩ := hc
  refine ⟨by simp [analyze_sentiment_group], ?_, ?_⟩
  · intro q hq
    show numeric_of (rating r) = q
    have hq' : to_numeric (rating r) = some q := hq
    rw [numeric_of, hq']
    rfl
  · intro hq
    show numeric_of (rating r) = 4
    have hq' : to_numeric (rating r) = none := hq
    rw [numeric_of, hq']
    rfl

/-- Witness for C2: the non-numeric raw rating "n/a" gets the default
numeric rating 4. -/
theorem numeric_rating_total_witness :
    (Classified.mk (RawCell.txt ['n', '/', 'a']) 4
      Sentiment.POSITIVE).numeric_rating = 4 :=
  (numeric_rating_total id [RawCell.txt ['n', '/', 'a']]
    (Classified.mk (RawCell.txt ['n', '/', 'a']) 4 Sentiment.POSITIVE)
    (by decide)).2.2 (by decide)

/-- C9: the classifier returns exactly the rows it was given — mapping
each output row to its original-row component recovers the input list, so
every original field is unchanged — and the only additions are the two
annotations, which are functions of the selected rating field. -/
theorem classifier_frame (rating : α → RawCell) (rows : List α) :
    (analyze_sentiment_group rating rows).map Classified.row = rows ∧
      ∀ c ∈ analyze_sentiment_group rating rows,
        c.numeric_rating = numeric_of (rating c.row) ∧
          c.sentiment = sentiment_of (numeric_of (rating c.row)) := by
  constructor
  · simp [analyze_sentiment_group, List.map_map, Function.comp_def]
  · intro c hc
    simp only [analyze_sentiment_group, List.mem_map] at hc
    obtain ⟨r, _, rfl⟩ := hc
    exact ⟨rfl, rfl⟩

/-- Witness for C9: a concrete classified row carries exactly the two
derived annotations. -/
theorem classifier_frame_witness :
    (Classified.mk RawCell.missing 4 Sentiment.POSITIVE).numeric_rating
        = numeric_of (id (Classified.mk RawCell.missing 4
          Sentiment.POSITIVE).row) ∧
      (Classified.mk RawCell.missing 4 Sentiment.POSITIVE).sentiment
        = sentiment_of (numeric_of (id (Classified.mk RawCell.missing 4
          Sentiment.POSITIVE).row)) :=
  (classifier_frame id [RawCell.missing]).2
    (Classified.mk RawCell.missing 4 Sentiment.POSITIVE) (by decide)

/-- C10: the classifier accepts a zero-row table and yields the empty
collection, but the macro-overview negative-percentage metric divides by
the row count with no guard for the empty case, so on zero rows it fails
(`ZeroDivisionError`, modelled as `none`); on every nonempty collection it
yields a value. -/
theorem empty_table_percentage_fails (rating : α → RawCell) :
    analyze_sentiment_group rating ([] : List α) = [] ∧
      negative_percentage (analyze_sentiment_group rating ([] : List α))
        = none ∧
      ∀ rows : List (Classified α), rows ≠ [] →
        (negative_percentage rows).isSome = true := by
  refine ⟨rfl, rfl, ?_⟩
  intro rows hne
  simp [negative_percentage, List.length_eq_zero, hne]

/-- Witness for C10: on a concrete one-row collection the metric
succeeds. -/
theorem empty_table_percentage_fails_witness :
    (negative_percentage
      [Classified.mk RawCell.missing 4 Sentiment.POSITIVE]).isSome = true :=
  (empty_table_percentage_fails id).2.2
    [Classified.mk RawCell.missing 4 Sentiment.POSITIVE] (by simp)

/-- The five-row scenario of C7: raw ratings 5, "n/a", 2, 3, 4. -/
def scenario_rows : List RawCell :=
  [RawCell.num 5, RawCell.txt ['n', '/', 'a'], RawCell.num 2, RawCell.num 3,
    RawCell.num 4]

/-- C7: on the scenario table the classifier yields numeric ratings
[5, 4, 2, 3, 4] and sentiments [POSITIVE, POSITIVE, NEGATIVE, NEGATIVE,
POSITIVE], and the negative-review percentage is 40. -/
theorem scenario_classification :
    (analyze_sentiment_group id scenario_rows).map Classified.numeric_rating
        = [5, 4, 2, 3, 4] ∧
      (analyze_sentiment_group id scenario_rows).map Classified.sentiment
        = [Sentiment.POSITIVE, Sentiment.POSITIVE, Sentiment.NEGATIVE,
            Sentiment.NEGATIVE, Sentiment.POSITIVE] ∧
      negative_percentage (analyze_sentiment_group id scenario_rows)
        = some 40 := by
  have hrows : analyze_sentiment_group id scenario_rows =
      [Classified.mk (RawCell.num 5) 5 Sentiment.POSITIVE,
        Classified.mk (RawCell.txt ['n', '/', 'a']) 4 Sentiment.POSITIVE,
        Classified.mk (RawCell.num 2) 2 Sentiment.NEGATIVE,
        Classified.mk (RawCell.num 3) 3 Sentiment.NEGATIVE,
        Classified.mk (RawCell.num 4) 4 Sentiment.POSITIVE] := by decide
  refine ⟨by rw [hrows]; rfl, by rw [hrows]; rfl, ?_⟩
  rw [hrows]
  simp +decide only [negative_percentage, List.filter, List.length]
  norm_num

/-- C6: keyword extraction over the empty collection of text cells
returns the empty ranked list, for every requested size.  The hypothesis
records the external tokenizer's behaviour on the empty text (jieba yields
no tokens from the empty string). -/
theorem keywords_empty_input (tokenize : Text → List Text) (top_n : Nat)
    (h : tokenize [] = []) :
    get_keywords tokenize [] top_n = [] := by
  have hj : join_spaces (List.filterMap id ([] : List (Option Text))) = [] := rfl
  rw [get_keywords, hj, h, most_common]
  exact List.take_nil

/-- Witness for C6 with a concrete tokenizer that is empty on empty
input. -/
theorem keywords_empty_input_witness :
    get_keywords (fun s => if s.isEmpty then [] else [s]) [] 20 = [] :=
  keywords_empty_input (fun s => if s.isEmpty then [] else [s]) 20 rfl

/-- C4: every extracted keyword has trimmed length at least 2 and its
lowercasing is outside the stopword set.  The hypothesis records the
external tokenizer's segmentation shape: jieba emits word tokens without
boundary whitespace and emits whitespace runs as separate, all-whitespace
tokens, so every token either survives stripping unchanged or strips to
the empty string.  Whitespace tokens are then removed by the line-39
length filter, and for the surviving tokens the pre-strip stopword test
coincides with the post-strip stored entry. -/
theorem keywords_filtered (tokenize : Text → List Text)
    (cells : List (Option Text)) (top_n : Nat)
    (htok : ∀ w ∈ tokenize (join_spaces (cells.filterMap id)),
      strip w = w ∨ strip w = [])
    (p : Text × Nat) (hp : p ∈ get_keywords tokenize cells top_n) :
    2 ≤ (strip p.1).length ∧ lowerStr p.1 ∉ stopwords := by
  rw [get_keywords, most_common] at hp
  have hp2 : p ∈ isortBy keepDesc
      (counter (filtered_words (tokenize (join_spaces (cells.filterMap id))))) :=
    (List.take_sublist _ _).subset hp
  have hp3 : p ∈ counter
      (filtered_words (tokenize (join_spaces (cells.filterMap id)))) :=
    (isortBy_perm _ _).mem_iff.mp hp2
  have hp4 : p.1 ∈ filtered_words (tokenize (join_spaces (cells.filterMap id))) :=
    (mem_counter hp3).1
  rw [filtered_words] at hp4
  rcases List.mem_map.mp hp4 with ⟨w, hwmem, hws⟩
  rcases List.mem_filter.mp hwmem with ⟨hw_in, hw_f⟩
  rw [keyword_filter, Bool.and_eq_true] at hw_f
  obtain ⟨hlen, hstop⟩ := hw_f
  have hlen' : 1 < (strip w).length := of_decide_eq_true hlen
  have hstop' : lowerStr w ∉ stopwords := of_decide_eq_true hstop
  have hsw : strip w = w := by
    rcases htok w hw_in with h | h
    · exact h
    · rw [h] at hlen'
      simp at hlen'
  constructor
  · rw [← hws, strip_idem]
    omega
  · rw [← hws, hsw]
    exact hstop'

/-- Witness for C4: the concrete keyword entry ("ab", 1) produced from a
token stream that also contains a whitespace-run token satisfies both
filters. -/
theorem keywords_filtered_witness :
    2 ≤ (strip ['a', 'b']).length ∧ lowerStr ['a', 'b'] ∉ stopwords :=
  keywords_filtered (fun _ => [['a', 'b'], [' '], ['c', 'd']]) [some ['x']] 20
    (by decide) (⟨['a', 'b'], 1⟩) (by decide)

theorem keepDesc_asym (a b : Text × Nat) :
    keepDesc a b = true → keepDesc b a = false := by
  intro h
  rw [keepDesc] at *
  have h1 : a.2 < b.2 := of_decide_eq_true h
  exact decide_eq_false (Nat.not_lt.mpr (Nat.le_of_lt h1))

theorem keepDesc_trans (a b c : Text × Nat) :
    keepDesc a b = false → keepDesc b c = false → keepDesc a c = false := by
  intro h1 h2
  rw [keepDesc] at *
  have h1' : ¬a.2 < b.2 := of_decide_eq_false h1
  have h2' : ¬b.2 < c.2 := of_decide_eq_false h2
  exact decide_eq_false (by omega)

/-- C3: the keyword list of `get_keywords` has length
`min top_n (number of distinct qualifying terms)` — never padded past the
distinct-term count — its counts are non-increasing, and two entries with
equal counts appear in the order of the first occurrences of their terms
in the aggregated (filtered) token stream. -/
theorem keywords_ranking (tokenize : Text → List Text)
    (cells : List (Option Text)) (top_n : Nat) :
    (get_keywords tokenize cells top_n).length
        = min top_n
            (filtered_words
              (tokenize (join_spaces (cells.filterMap id)))).dedup.length ∧
      (get_keywords tokenize cells top_n).Pairwise (fun p q => q.2 ≤ p.2) ∧
      (∀ (i j : Nat) (hi : i < (get_keywords tokenize cells top_n).length)
          (hj : j < (get_keywords tokenize cells top_n).length),
        i < j →
          ((get_keywords tokenize cells top_n).get ⟨i, hi⟩).2
              = ((get_keywords tokenize cells top_n).get ⟨j, hj⟩).2 →
          firstIdx ((get_keywords tokenize cells top_n).get ⟨i, hi⟩).1
              (filtered_words (tokenize (join_spaces (cells.filterMap id))))
            < firstIdx ((get_keywords tokenize cells top_n).get ⟨j, hj⟩).1
              (filtered_words (tokenize (join_spaces (cells.filterMap id))))) := by
  refine ⟨?_, ?_, ?_⟩
  · rw [get_keywords, most_common, List.length_take,
      (isortBy_perm keepDesc _).length_eq, counter_length]
  · have hs := isortBy_pairwise keepDesc keepDesc_asym keepDesc_trans
      (counter (filtered_words (tokenize (join_spaces (cells.filterMap id)))))
    have hs2 := List.Pairwise.sublist
      (List.take_sublist top_n
        (isortBy keepDesc (counter (filtered_words
          (tokenize (join_spaces (cells.filterMap id))))))) hs
    rw [get_keywords, most_common]
    exact hs2.imp (fun h => Nat.not_lt.mp (of_decide_eq_false h))
  · intro i j hi hj hij hcount
    have hpair := pair_get_sublist (get_keywords tokenize cells top_n) i j hi hj hij
    have hpair2 : [(get_keywords tokenize cells top_n).get ⟨i, hi⟩,
        (get_keywords tokenize cells top_n).get ⟨j, hj⟩].Sublist
        (isortBy keepDesc (counter (filtered_words
          (tokenize (join_spaces (cells.filterMap id)))))) := by
      refine hpair.trans ?_
      rw [get_keywords, most_common]
      exact List.take_sublist _ _
    have htie : keepDesc ((get_keywords tokenize cells top_n).get ⟨j, hj⟩)
        ((get_keywords tokenize cells top_n).get ⟨i, hi⟩) = false := by
      rw [keepDesc, hcount]
      exact decide_eq_false (Nat.lt_irrefl _)
    have hcp := pair_sublist_isortBy keepDesc htie _ hpair2
    have hkeys := counter_pair_sublist hcp
    exact firstOccs_firstIdx_lt hkeys

theorem keepAscRating_asym {K : Type} (a b : K × ℚ × Nat) :
    keepAscRating a b = true → keepAscRating b a = false := by
  intro h
  rw [keepAscRating] at *
  have h1 : b.2.1 < a.2.1 := of_decide_eq_true h
  exact decide_eq_false (not_lt.mpr (le_of_lt h1))

theorem keepAscRating_trans {K : Type} (a b c : K × ℚ × Nat) :
    keepAscRating a b = false → keepAscRating b c = false →
      keepAscRating a c = false := by
  intro h1 h2
  rw [keepAscRating] at *
  have h1' : a.2.1 ≤ b.2.1 := not_lt.mp (of_decide_eq_false h1)
  have h2' : b.2.1 ≤ c.2.1 := not_lt.mp (of_decide_eq_false h2)
  exact decide_eq_false (not_lt.mpr (h1'.trans h2'))

/-- C8: variant aggregation computes, per variant value, the mean numeric
rating and the row count of its group; a variant survives the filter
exactly when its count reaches `min_count`; the retained variants are
ordered by mean rating ascending; and on the scenario rows {A:5, A:3, B:1}
with `min_count` 2 only variant A is retained, with mean 4. -/
theorem variant_aggregation {K α : Type} [DecidableEq K]
    (variantOf : α → K) (ratingOf : α → ℚ) (rows : List α) (min_count : Nat) :
    (∀ p ∈ variant_stats variantOf ratingOf rows,
        p.2.1 = listMean ((rows.filter
            (fun r => decide (variantOf r = p.1))).map ratingOf) ∧
          p.2.2 = (rows.filter (fun r => decide (variantOf r = p.1))).length) ∧
      (∀ r ∈ rows, ∃ p ∈ variant_stats variantOf ratingOf rows,
        p.1 = variantOf r) ∧
      (∀ p, p ∈ variant_filtered variantOf ratingOf rows min_count ↔
        (p ∈ variant_stats variantOf ratingOf rows ∧ min_count ≤ p.2.2)) ∧
      (variant_filtered variantOf ratingOf rows min_count).Pairwise
        (fun p q => p.2.1 ≤ q.2.1) ∧
      variant_filtered Prod.fst Prod.snd
          [(('A' : Char), (5 : ℚ)), ('A', 3), ('B', 1)] 2
        = [('A', 4, 2)] := by
  refine ⟨?_, ?_, ?_, ?_, ?_⟩
  · intro p hp
    rw [variant_stats] at hp
    rcases List.mem_map.mp hp with ⟨k, _, rfl⟩
    exact ⟨rfl, rfl⟩
  · intro r hr
    refine ⟨(variantOf r,
      listMean ((rows.filter
        (fun x => decide (variantOf x = variantOf r))).map ratingOf),
      (rows.filter (fun x => decide (variantOf x = variantOf r))).length),
      ?_, rfl⟩
    rw [variant_stats]
    apply List.mem_map.mpr
    refine ⟨variantOf r, ?_, rfl⟩
    rw [mem_firstOccs]
    exact List.mem_map.mpr ⟨r, hr, rfl⟩
  · intro p
    rw [variant_filtered, (isortBy_perm keepAscRating _).mem_iff,
      List.mem_filter, decide_eq_true_eq]
  · exact List.Pairwise.imp
      (fun h => not_lt.mp (of_decide_eq_false h))
      (isortBy_pairwise keepAscRating keepAscRating_asym keepAscRating_trans _)
  · have hocc : firstOccs (List.map Prod.fst
        [(('A' : Char), (5 : ℚ)), ('A', 3), ('B', 1)]) = ['A', 'B'] := by
      decide
    have hstats : variant_stats Prod.fst Prod.snd
        [(('A' : Char), (5 : ℚ)), ('A', 3), ('B', 1)]
        = [('A', 4, 2), ('B', 1, 1)] := by
      rw [variant_stats, hocc]
      simp +decide only [List.map_cons, List.map_nil, List.filter]
      norm_num [listMean]
    rw [variant_filtered, hstats]
    rfl

end ReviewAnalysis
